import Mathlib

/-!
# Verification of the capnp-gj streaming wire framing (`src/serialize.rs`)

A shallow embedding of the segment-table codec and the asynchronous
read/write pipelines of `serialize.rs`.  An asynchronous byte stream is
modelled as the finite list of bytes it will yield before EOF; promise
chains become ordinary function composition; machine integers become
`Nat` with explicit `% 2^32` where the Rust code wraps or truncates.
-/

namespace CapnpGj

/-- A byte, `0 ≤ b < 256`. -/
abbrev Byte := Nat

/-- A capnp `Word`, an opaque 8-byte quantity, represented by the value of
its 8 little-endian bytes (`< 2^64`). -/
abbrev Word := Nat

/-- Little-endian value of a byte list: `leVal [b0, b1, …] = b0 + 256*b1 + …`. -/
def leVal (bs : List Byte) : Nat :=
  bs.foldr (fun b acc => b + 256 * acc) 0

/-- The `k` little-endian bytes of `v % 2^(8*k)`. -/
def leBytes : Nat → Nat → List Byte
  | 0, _ => []
  | k + 1, v => v % 256 :: leBytes k (v / 256)

/-- `LittleEndian::read_u32(&buf[off..off+4])`: the little-endian u32 held in
the four bytes of `buf` starting at `off`. -/
def readU32LE (buf : List Byte) (off : Nat) : Nat :=
  leVal ((buf.drop off).take 4)

/-- The four bytes `LittleEndian::write_u32` stores for `v` (taken mod `2^32`,
modelling the `as u32` truncation at the call sites). -/
def u32Bytes (v : Nat) : List Byte := leBytes 4 v

/-- `LittleEndian::write_u32(&mut buf[off..off+4], v)`: overwrite the four
bytes of `buf` at `off` with the little-endian bytes of `v`. -/
def writeU32LE (buf : List Byte) (off : Nat) (v : Nat) : List Byte :=
  buf.take off ++ u32Bytes v ++ buf.drop (off + 4)

/-- `x & !1` on `usize`: clear the lowest bit. -/
def andNot1 (x : Nat) : Nat := 2 * (x / 2)

/-- `Word::words_to_bytes` on a single word: its 8 little-endian bytes. -/
def wordBytes (w : Word) : List Byte := leBytes 8 w

/-- `Word::words_to_bytes`: a word slice viewed as its underlying bytes. -/
def wordsToBytes (ws : List Word) : List Byte :=
  (ws.map wordBytes).flatten

/-- The inverse byte view: a byte buffer reinterpreted as 8-byte words (the
callers only ever apply this to buffers of exactly `8*n` bytes). -/
def bytesToWords : List Byte → List Word
  | b0 :: b1 :: b2 :: b3 :: b4 :: b5 :: b6 :: b7 :: rest =>
      leVal [b0, b1, b2, b3, b4, b5, b6, b7] :: bytesToWords rest
  | _ => []

/-- `std::io::ErrorKind` (only the variant this module constructs). -/
inductive ErrorKind
  | other
  deriving DecidableEq

/-- `capnp::Error` as this module produces it: either an I/O error built
here via `io::Error::new(kind, msg)`, or an error propagated from the gj
stream primitive (`Err(e.error.into())`); with failure-free streams the
only such propagated error is EOF before an exact read completed. -/
inductive CapnpError
  | ioErr (kind : ErrorKind) (msg : String)
  | streamEof
  deriving DecidableEq

/-- `stream.try_read(buf, n)`: read up to `n` bytes, short only at EOF.
Returns `(stream', buf', bytes_read)`; bytes beyond `bytes_read` keep the
buffer's previous contents. -/
def tryRead (stream : List Byte) (buf : List Byte) (n : Nat) :
    List Byte × List Byte × Nat :=
  (stream.drop n, stream.take n ++ buf.drop (stream.take n).length,
   min n stream.length)

/-- `stream.read(buf, n)`: read exactly `n` bytes or fail (EOF before `n`
bytes is an error in the gj stream primitive). Returns `(stream', buf')`. -/
def readExact (stream : List Byte) (n : Nat) : Option (List Byte × List Byte) :=
  if n ≤ stream.length then some (stream.drop n, stream.take n) else none

/-- Outcome of `try_read_segment_table`. -/
inductive TableResult
  /-- the `unimplemented!()` branches were reached -/
  | panicked
  | err (e : CapnpError)
  /-- `Ok((stream, None))`: clean EOF before any byte of this message -/
  | eof (stream : List Byte)
  /-- `Ok((stream, Some((total_words, segment_slices))))` -/
  | ok (stream : List Byte) (total_words : Nat) (segment_slices : List (Nat × Nat))
  deriving DecidableEq

/-- `try_read_segment_table`: read the 8-byte header word, derive the
segment count and segment-0 length, then (for more than one segment) read
and parse the remaining length fields. -/
def try_read_segment_table (stream : List Byte) : TableResult :=
  let r := tryRead stream (List.replicate 8 0) 8
  let stream1 := r.1
  let buf := r.2.1
  let n := r.2.2
  if n = 0 then .eof stream1
  else if n < 8 then .err (.ioErr .other "premature EOF")
  else
    let segment_count := (readU32LE buf 0 + 1) % 2 ^ 32
    if 512 ≤ segment_count then .panicked
    else if segment_count = 0 then .panicked
    else
      let total_words := readU32LE buf 4
      let segment_slices : List (Nat × Nat) := [(0, total_words)]
      if 1 < segment_count then
        let buf_len := if segment_count = 2 then buf.length
                       else 4 * andNot1 segment_count
        match readExact stream1 buf_len with
        | none => .err .streamEof
        | some (stream2, buf2) =>
            let st := (List.range (segment_count - 1)).foldl
              (fun st idx =>
                let segment_len := readU32LE buf2 (idx * 4)
                (st.1 ++ [(st.2, st.2 + segment_len)], st.2 + segment_len))
              (segment_slices, total_words)
            .ok stream2 st.2 st.1
      else .ok stream1 total_words segment_slices

/-- The decoded, buffer-backed segment store (`OwnedSegments`). -/
structure OwnedSegments where
  segment_slices : List (Nat × Nat)
  owned_space : List Word
  deriving DecidableEq

/-- Result of `get_segment`, with the possibility that the slice expression
`&self.owned_space[a..b]` is out of bounds (a Rust panic) made explicit. -/
inductive GetSegmentResult
  | panicked
  /-- `None`: the id is out of range -/
  | notFound
  /-- `Some(&self.owned_space[a..b])` -/
  | found (words : List Word)
  deriving DecidableEq

/-- `&v[a..b]`: `some` sub-slice when `a ≤ b ≤ v.len()`, `none` (panic)
otherwise. -/
def sliceRange (v : List Word) (a b : Nat) : Option (List Word) :=
  if a ≤ b ∧ b ≤ v.length then some ((v.drop a).take (b - a)) else none

/-- `OwnedSegments::get_segment`. -/
def get_segment (s : OwnedSegments) (id : Nat) : GetSegmentResult :=
  if id < s.segment_slices.length then
    let p := s.segment_slices.getD id (0, 0)
    match sliceRange s.owned_space p.1 p.2 with
    | some ws => .found ws
    | none => .panicked
  else .notFound

/-- Outcome of the top-level read pipelines. -/
inductive ReadResult
  | panicked
  | err (e : CapnpError)
  /-- `(stream, None)` from `try_read_message`: clean EOF -/
  | eof (stream : List Byte)
  /-- `(stream, message reader over the decoded store)` -/
  | ok (stream : List Byte) (reader : OwnedSegments)
  deriving DecidableEq

/-- `read_segments`: allocate a zeroed buffer of `total_words` words, read
exactly that many bytes into it, and build the `OwnedSegments` store. -/
def read_segments (stream : List Byte) (total_words : Nat)
    (segment_slices : List (Nat × Nat)) :
    Except CapnpError (List Byte × OwnedSegments) :=
  match readExact stream (8 * total_words) with
  | none => .error .streamEof
  | some (stream1, bytes) =>
      .ok (stream1, ⟨segment_slices, bytesToWords bytes⟩)

/-- `try_read_message`: decode the segment table; `None` on clean EOF;
otherwise read the body and wrap the store in a reader. -/
def try_read_message (stream : List Byte) : ReadResult :=
  match try_read_segment_table stream with
  | .panicked => .panicked
  | .err e => .err e
  | .eof s => .eof s
  | .ok s total_words segment_slices =>
      match read_segments s total_words segment_slices with
      | .error e => .err e
      | .ok (s1, m) => .ok s1 m

/-- `read_message`: like `try_read_message`, but clean EOF becomes an
explicit `premature EOF` I/O error. -/
def read_message (stream : List Byte) : ReadResult :=
  match try_read_message stream with
  | .eof _ => .err (.ioErr .other "premature EOF")
  | r => r

/-- The external message builder, exposing its segments as an ordered list
of word arrays (`get_segments_for_output`). -/
structure Builder where
  segments : List (List Word)
  deriving DecidableEq

/-- `OutputSegmentsContainer`: the builder together with the view of its
output segments that the write pipeline threads through each step. -/
structure OutputSegmentsContainer where
  message : Builder

/-- `OutputSegmentsContainer::get`: the cached view aliases the builder's
own segments. -/
def OutputSegmentsContainer.get (c : OutputSegmentsContainer) :
    List (List Word) :=
  c.message.segments

/-- `write_segment_table`: build the header buffer (zero-filled, then the
count field and one length field per segment) and write it to the stream.
The written stream is modelled as the list of bytes written so far;
`segment_count ≥ 1` is guaranteed by the upstream message model, so the
`as u32 - 1` subtraction does not wrap. -/
def write_segment_table (stream : List Byte) (segments : OutputSegmentsContainer) :
    List Byte × OutputSegmentsContainer :=
  let segment_count := segments.get.length
  let buf : List Byte := List.replicate (andNot1 (2 + segment_count) * 4) 0
  let buf := writeU32LE buf 0 (segment_count - 1)
  let buf := (List.range segment_count).foldl
    (fun b idx => writeU32LE b ((idx + 1) * 4) (segments.get.getD idx []).length)
    buf
  (stream ++ buf, segments)

/-- The body of `write_segments_loop` from index `idx` up: the Rust loop
writes `segments.get()[idx]` and recurses at `idx + 1`; here the
still-unwritten suffix of the segment list drives the recursion. -/
def writeSegsFrom (stream : List Byte) : List (List Word) → List Byte
  | [] => stream
  | seg :: rest => writeSegsFrom (stream ++ wordsToBytes seg) rest

/-- `write_segments_loop`: write segments `idx, idx+1, …` in order, then
hand the container back. -/
def write_segments_loop (stream : List Byte) (segments : OutputSegmentsContainer)
    (idx : Nat) : List Byte × OutputSegmentsContainer :=
  (writeSegsFrom stream (segments.get.drop idx), segments)

/-- `write_segments`. -/
def write_segments (stream : List Byte) (segments : OutputSegmentsContainer) :
    List Byte × OutputSegmentsContainer :=
  write_segments_loop stream segments 0

/-- `write_message`: write the segment table, then the segment bodies, and
return the original builder with the stream. -/
def write_message (stream : List Byte) (message : Builder) :
    List Byte × Builder :=
  let segments := OutputSegmentsContainer.mk message
  let r := write_segment_table stream segments
  let r := write_segments r.1 r.2
  (r.1, r.2.message)

/-- Half-open word ranges of consecutive segments of the given lengths,
laid out from offset `t`. -/
def slicesFrom (t : Nat) : List Nat → List (Nat × Nat)
  | [] => []
  | l :: ls => (t, t + l) :: slicesFrom (t + l) ls

/-- All offsets of a layout, in order: `start₀, end₀, start₁, end₁, …`. -/
def offsetsOf (slices : List (Nat × Nat)) : List Nat :=
  (slices.map fun p => [p.1, p.2]).flatten

/-- The segment-layout invariant: offsets are non-decreasing, the first
segment starts at 0, each segment's end is the next segment's start, and
the last segment's end is the total word count. -/
def layoutOk (slices : List (Nat × Nat)) (total_words : Nat) : Prop :=
  slices.head?.map Prod.fst = some 0 ∧
  List.Chain' (fun p q => p.2 = q.1) slices ∧
  slices.getLast?.map Prod.snd = some total_words ∧
  List.Chain' (· ≤ ·) (offsetsOf slices)

/-! ## Byte-level lemmas -/

theorem leVal_nil : leVal [] = 0 := rfl

theorem leVal_cons (b : Byte) (bs : List Byte) :
    leVal (b :: bs) = b + 256 * leVal bs := rfl

theorem leBytes_length (k : Nat) : ∀ v, (leBytes k v).length = k := by
  induction k with
  | zero => intro v; rfl
  | succ k ih => intro v; simp [leBytes, ih]

theorem leVal_leBytes (k : Nat) : ∀ v, leVal (leBytes k v) = v % 2 ^ (8 * k) := by
  induction k with
  | zero => intro v; simp [leBytes, leVal]; omega
  | succ k ih =>
    intro v
    rw [show 8 * (k + 1) = 8 * k + 8 by ring, pow_add,
        show (2 : Nat) ^ 8 = 256 from rfl, mul_comm ((2 : Nat) ^ (8 * k)) 256,
        Nat.mod_mul]
    simp [leBytes, leVal_cons, ih]

theorem u32Bytes_length (v : Nat) : (u32Bytes v).length = 4 :=
  leBytes_length 4 v

theorem wordBytes_length (w : Word) : (wordBytes w).length = 8 :=
  leBytes_length 8 w

theorem readU32LE_shift (A R : List Byte) (off : Nat) :
    readU32LE (A ++ R) (A.length + off) = readU32LE R off := by
  simp [readU32LE, List.drop_append]

theorem readU32LE_u32Bytes (v : Nat) (R : List Byte) :
    readU32LE (u32Bytes v ++ R) 0 = v % 2 ^ 32 := by
  rw [readU32LE, List.drop_zero, List.take_left' (u32Bytes_length v), u32Bytes,
    leVal_leBytes]

theorem readU32LE_flatten_u32 (ls : List Nat) :
    ∀ (i : Nat) (junk : List Byte), i < ls.length →
      readU32LE ((ls.map u32Bytes).flatten ++ junk) (i * 4) = ls.getD i 0 % 2 ^ 32 := by
  induction ls with
  | nil => intro i junk h; simp at h
  | cons l t ih =>
    intro i junk h
    cases i with
    | zero =>
      simp only [List.map_cons, List.flatten_cons, List.append_assoc, Nat.zero_mul]
      rw [readU32LE_u32Bytes]
      rfl
    | succ i =>
      have hshift : (i + 1) * 4 = (u32Bytes l).length + i * 4 := by
        rw [u32Bytes_length]; ring
      simp only [List.map_cons, List.flatten_cons, List.append_assoc, hshift]
      rw [readU32LE_shift]
      exact ih i junk (by simpa using h)

theorem bytesToWords_wordBytes_append (w : Word) (bs : List Byte) :
    bytesToWords (wordBytes w ++ bs) = w % 2 ^ 64 :: bytesToWords bs := by
  have h := leVal_leBytes 8 w
  simp only [leBytes] at h
  show bytesToWords (leBytes 8 w ++ bs) = w % 2 ^ 64 :: bytesToWords bs
  simp only [leBytes, List.cons_append, List.nil_append, bytesToWords]
  rw [show (8 : Nat) * 8 = 64 from rfl] at h
  rw [← h]
  rfl

theorem wordsToBytes_cons (w : Word) (t : List Word) :
    wordsToBytes (w :: t) = wordBytes w ++ wordsToBytes t := by
  simp [wordsToBytes]

theorem wordsToBytes_length (ws : List Word) :
    (wordsToBytes ws).length = 8 * ws.length := by
  induction ws with
  | nil => rfl
  | cons w t ih => simp [wordsToBytes_cons, ih, wordBytes_length]; ring

theorem bytesToWords_wordsToBytes (ws : List Word) (h : ∀ w ∈ ws, w < 2 ^ 64) :
    bytesToWords (wordsToBytes ws) = ws := by
  induction ws with
  | nil => rfl
  | cons w t ih =>
    rw [wordsToBytes_cons, bytesToWords_wordBytes_append,
      Nat.mod_eq_of_lt (h w (by simp)), ih (fun x hx => h x (by simp [hx]))]

theorem bytesToWords_length_mul8 : ∀ (t : Nat) (bs : List Byte),
    bs.length = 8 * t → (bytesToWords bs).length = t := by
  intro t
  induction t with
  | zero =>
    intro bs h
    have : bs = [] := List.eq_nil_of_length_eq_zero (by omega)
    subst this; rfl
  | succ k ih =>
    intro bs h
    match bs with
    | b0 :: b1 :: b2 :: b3 :: b4 :: b5 :: b6 :: b7 :: rest =>
      simp only [bytesToWords, List.length_cons]
      have := ih rest (by simp at h; omega)
      omega
    | [] | [_] | [_, _] | [_, _, _] | [_, _, _, _] | [_, _, _, _, _]
    | [_, _, _, _, _, _] | [_, _, _, _, _, _, _] =>
      simp at h <;> omega

/-! ## Layout lemmas -/

theorem slicesFrom_length : ∀ (ls : List Nat) (t : Nat),
    (slicesFrom t ls).length = ls.length := by
  intro ls
  induction ls with
  | nil => intro t; rfl
  | cons l tl ih => intro t; simp [slicesFrom, ih]

theorem slicesFrom_getD : ∀ (ls : List Nat) (t i : Nat), i < ls.length →
    (slicesFrom t ls).getD i (0, 0)
      = (t + (ls.take i).sum, t + (ls.take (i + 1)).sum) := by
  intro ls
  induction ls with
  | nil => intro t i h; simp at h
  | cons l tl ih =>
    intro t i h
    cases i with
    | zero => simp [slicesFrom]
    | succ i =>
      simp only [slicesFrom, List.getD_cons_succ, List.take_succ_cons,
        List.sum_cons]
      rw [ih (t + l) i (by simpa using h)]
      simp only [Prod.mk.injEq]
      omega

theorem slicesFrom_mem_bounds : ∀ (ls : List Nat) (t : Nat) (p : Nat × Nat),
    p ∈ slicesFrom t ls → t ≤ p.1 ∧ p.1 ≤ p.2 ∧ p.2 ≤ t + ls.sum := by
  intro ls
  induction ls with
  | nil => intro t p h; simp [slicesFrom] at h
  | cons l tl ih =>
    intro t p h
    simp only [slicesFrom, List.mem_cons] at h
    rcases h with h | h
    · subst h; simp only [List.sum_cons]; simp
    · have := ih (t + l) p h
      simp only [List.sum_cons]
      omega

theorem slicesFrom_chain_link : ∀ (ls : List Nat) (t : Nat) (p : Nat × Nat),
    p.2 = t → List.Chain' (fun p q : Nat × Nat => p.2 = q.1) (p :: slicesFrom t ls) := by
  intro ls
  induction ls with
  | nil => intro t p _; exact List.chain'_singleton p
  | cons l tl ih =>
    intro t p hp
    simp only [slicesFrom]
    exact List.Chain'.cons hp (ih (t + l) (t, t + l) rfl)

theorem offsetsOf_slicesFrom_cons (t l : Nat) (ls : List Nat) :
    offsetsOf (slicesFrom t (l :: ls))
      = t :: (t + l) :: offsetsOf (slicesFrom (t + l) ls) := by
  simp [offsetsOf, slicesFrom]

theorem slicesFrom_offsets_chain : ∀ (ls : List Nat) (t a : Nat), a ≤ t →
    List.Chain' (· ≤ ·) (a :: offsetsOf (slicesFrom t ls)) := by
  intro ls
  induction ls with
  | nil => intro t a _; simp [slicesFrom, offsetsOf]
  | cons l tl ih =>
    intro t a ha
    rw [offsetsOf_slicesFrom_cons]
    exact List.Chain'.cons ha (List.Chain'.cons (by omega) (ih (t + l) (t + l) le_rfl))

theorem slicesFrom_getLast : ∀ (ls : List Nat) (t : Nat) (p : Nat × Nat),
    p.2 = t → ((p :: slicesFrom t ls).getLast?).map Prod.snd = some (t + ls.sum) := by
  intro ls
  induction ls with
  | nil => intro t p hp; simp [slicesFrom, hp]
  | cons l tl ih =>
    intro t p _
    simp only [slicesFrom, List.getLast?_cons_cons]
    rw [show (l :: tl).sum = l + tl.sum from List.sum_cons, ← Nat.add_assoc]
    exact ih (t + l) (t, t + l) rfl

/-! ## The decoder's slice-accumulation loop -/

theorem foldSlices (buf2 : List Byte) :
    ∀ (idxs : List Nat) (acc : List (Nat × Nat)) (t0 : Nat),
      idxs.foldl
        (fun st idx =>
          let segment_len := readU32LE buf2 (idx * 4)
          (st.1 ++ [(st.2, st.2 + segment_len)], st.2 + segment_len))
        (acc, t0)
      = (acc ++ slicesFrom t0 (idxs.map fun i => readU32LE buf2 (i * 4)),
         t0 + (idxs.map fun i => readU32LE buf2 (i * 4)).sum) := by
  intro idxs
  induction idxs with
  | nil => intro acc t0; simp [slicesFrom]
  | cons i tl ih =>
    intro acc t0
    simp only [List.foldl_cons, List.map_cons, slicesFrom, List.sum_cons]
    rw [ih]
    simp [List.append_assoc, Nat.add_assoc]

/-! ## `List.range` plumbing -/

theorem range_map_getD {α β : Type} (f : α → β) (d : α) :
    ∀ l : List α, (List.range l.length).map (fun i => f (l.getD i d)) = l.map f := by
  intro l
  induction l with
  | nil => rfl
  | cons a t ih =>
    simp only [List.length_cons, List.range_succ_eq_map, List.map_cons,
      List.map_map, List.getD_cons_zero]
    refine congrArg (f a :: ·) ?_
    rw [← ih]
    rfl

theorem parsedLens (ls : List Nat) (junk : List Byte) (h : ∀ x ∈ ls, x < 2 ^ 32) :
    (List.range ls.length).map
      (fun i => readU32LE ((ls.map u32Bytes).flatten ++ junk) (i * 4)) = ls := by
  have h1 : (List.range ls.length).map
      (fun i => readU32LE ((ls.map u32Bytes).flatten ++ junk) (i * 4))
      = (List.range ls.length).map (fun i => ls.getD i 0 % 2 ^ 32) := by
    apply List.map_congr_left
    intro i hi
    exact readU32LE_flatten_u32 ls i junk (List.mem_range.mp hi)
  rw [h1, range_map_getD (fun x => x % 2 ^ 32) 0 ls]
  calc ls.map (fun x => x % 2 ^ 32) = ls.map id := by
        apply List.map_congr_left
        intro x hx
        exact Nat.mod_eq_of_lt (h x hx)
    _ = ls := List.map_id ls

/-! ## The encoder's header buffer -/

theorem writeU32LE_replicate (m v : Nat) :
    writeU32LE (List.replicate m 0) 0 v = u32Bytes v ++ List.replicate (m - 4) 0 := by
  simp [writeU32LE, List.drop_replicate]

theorem writeU32LE_mid (A : List Byte) (r v : Nat) (pos : Nat)
    (hA : A.length = pos) :
    writeU32LE (A ++ List.replicate r 0) pos v
      = A ++ u32Bytes v ++ List.replicate (r - 4) 0 := by
  have hdrop : (A ++ List.replicate r 0).drop (pos + 4)
      = List.replicate (r - 4) 0 := by
    rw [show pos + 4 = A.length + 4 by rw [hA], List.drop_append,
      List.drop_replicate]
  rw [writeU32LE, List.take_left' hA, hdrop, List.append_assoc]

theorem foldWrite (g : Nat → Nat) :
    ∀ (n s : Nat) (A : List Byte) (r : Nat), A.length = (s + 1) * 4 → 4 * n ≤ r →
      (List.range' s n).foldl
        (fun b idx => writeU32LE b ((idx + 1) * 4) (g idx))
        (A ++ List.replicate r 0)
      = A ++ ((List.range' s n).map fun i => u32Bytes (g i)).flatten
          ++ List.replicate (r - 4 * n) 0 := by
  intro n
  induction n with
  | zero => intro s A r _ _; simp
  | succ k ih =>
    intro s A r hA hr
    rw [List.range'_succ]
    simp only [List.foldl_cons, List.map_cons, List.flatten_cons]
    rw [writeU32LE_mid A r (g s) ((s + 1) * 4) hA,
      ih (s + 1) (A ++ u32Bytes (g s)) (r - 4)
        (by simp [hA, u32Bytes_length]; ring) (by omega)]
    have : r - 4 - 4 * k = r - 4 * (k + 1) := by omega
    simp [List.append_assoc, this]

/-- The header buffer `write_segment_table` produces, in closed form:
the count field, one length field per segment, and a zero pad word-filler
exactly when the segment count is even. -/
theorem write_segment_table_eq (msg : Builder) :
    (write_segment_table [] ⟨msg⟩).1
      = u32Bytes (msg.segments.length - 1)
        ++ ((msg.segments.map fun s => u32Bytes s.length).flatten)
        ++ List.replicate (if msg.segments.length % 2 = 0 then 4 else 0) 0 := by
  unfold write_segment_table
  simp only [OutputSegmentsContainer.get, List.nil_append]
  rw [writeU32LE_replicate, List.range_eq_range',
    foldWrite (fun idx => ((msg.segments.getD idx []).length)) msg.segments.length 0
      (u32Bytes (msg.segments.length - 1)) (andNot1 (2 + msg.segments.length) * 4 - 4)
      (by simp [u32Bytes_length])
      (by unfold andNot1; omega)]
  rw [← List.range_eq_range',
    range_map_getD (fun s => u32Bytes (List.length s)) ([] : List Word) msg.segments]
  have hpad : andNot1 (2 + msg.segments.length) * 4 - 4 - 4 * msg.segments.length
      = if msg.segments.length % 2 = 0 then 4 else 0 := by
    unfold andNot1
    by_cases h : msg.segments.length % 2 = 0 <;> simp [h] <;> omega
  rw [hpad]


/-! ## Evaluating the segment-table decoder -/

/-- Closed-form evaluation of `try_read_segment_table` on a stream holding
at least the 8 header bytes. -/
theorem try_read_segment_table_of_long (stream : List Byte) (h8 : 8 ≤ stream.length) :
    try_read_segment_table stream =
      (let buf := stream.take 8
       let segment_count := (readU32LE buf 0 + 1) % 2 ^ 32
       if 512 ≤ segment_count then .panicked
       else if segment_count = 0 then .panicked
       else
         let total_words := readU32LE buf 4
         if 1 < segment_count then
           let buf_len := if segment_count = 2 then 8 else 4 * andNot1 segment_count
           match readExact (stream.drop 8) buf_len with
           | none => .err .streamEof
           | some (stream2, buf2) =>
               .ok stream2
                 (total_words + ((List.range (segment_count - 1)).map
                    (fun i => readU32LE buf2 (i * 4))).sum)
                 ((0, total_words) :: slicesFrom total_words
                    ((List.range (segment_count - 1)).map fun i => readU32LE buf2 (i * 4)))
         else .ok (stream.drop 8) total_words [(0, total_words)]) := by
  have hmin : min 8 stream.length = 8 := by omega
  have htk : (stream.take 8).length = 8 := by
    simp [List.length_take]; omega
  simp only [try_read_segment_table, tryRead, hmin, htk, List.drop_replicate,
    Nat.sub_self, List.replicate_zero, List.append_nil]
  norm_num
  simp only [foldSlices, List.singleton_append]

/-- On a stream shorter than the 8 header bytes, the decoder reports clean
EOF (zero bytes) or a premature-EOF framing error (1–7 bytes). -/
theorem try_read_segment_table_of_short (stream : List Byte) (h : stream.length < 8) :
    try_read_segment_table stream =
      if stream.length = 0 then .eof [] else .err (.ioErr .other "premature EOF") := by
  have hmin : min 8 stream.length = stream.length := by omega
  have hdrop : stream.drop 8 = [] := List.drop_eq_nil_of_le (by omega)
  simp only [try_read_segment_table, tryRead, hmin, hdrop]
  by_cases h0 : stream.length = 0
  · simp [h0]
  · rw [if_neg h0, if_pos h, if_neg h0]

/-- Any successfully decoded layout is a run of consecutive slices starting
at 0, whose first length is the little-endian u32 at bytes 4–7 of the
header, and whose total is the sum of the lengths. -/
theorem table_ok_shape {stream rest : List Byte} {t : Nat} {slices : List (Nat × Nat)}
    (h : try_read_segment_table stream = .ok rest t slices) :
    ∃ ls, slices
        = (0, readU32LE (stream.take 8) 4) :: slicesFrom (readU32LE (stream.take 8) 4) ls
      ∧ t = readU32LE (stream.take 8) 4 + ls.sum := by
  by_cases h8 : 8 ≤ stream.length
  · rw [try_read_segment_table_of_long stream h8] at h
    simp only at h
    split at h
    · exact absurd h (by simp)
    · split at h
      · exact absurd h (by simp)
      · split at h
        · rcases hE : readExact (stream.drop 8)
              (if (readU32LE (stream.take 8) 0 + 1) % 2 ^ 32 = 2 then 8
               else 4 * andNot1 ((readU32LE (stream.take 8) 0 + 1) % 2 ^ 32)) with
            _ | ⟨s2, b2⟩
          · rw [hE] at h; exact absurd h (by simp)
          · rw [hE] at h
            rcases h with ⟨⟩
            exact ⟨_, rfl, rfl⟩
        · rcases h with ⟨⟩
          exact ⟨[], rfl, by simp [slicesFrom]⟩
  · rw [try_read_segment_table_of_short stream (by omega)] at h
    by_cases h0 : stream.length = 0 <;> simp [h0] at h


/-! ## Decoding a well-formed header -/

theorem u32chunks_length (ls : List Nat) :
    ((ls.map u32Bytes).flatten).length = 4 * ls.length := by
  induction ls with
  | nil => rfl
  | cons l t ih => simp [List.flatten_cons, ih, u32Bytes_length]; ring

theorem readU32LE_pair (v w : Nat) (R : List Byte) :
    readU32LE ((u32Bytes v ++ u32Bytes w) ++ R) 4 = w % 2 ^ 32 := by
  rw [List.append_assoc]
  have h := readU32LE_shift (u32Bytes v) (u32Bytes w ++ R) 0
  rw [u32Bytes_length] at h
  rw [show (4 : Nat) = 4 + 0 from rfl, h, readU32LE_u32Bytes]

theorem readU32LE_pair_fst (v w : Nat) (R : List Byte) :
    readU32LE ((u32Bytes v ++ u32Bytes w) ++ R) 0 = v % 2 ^ 32 := by
  rw [List.append_assoc, readU32LE_u32Bytes]

/-- Decoding a stream that starts with a well-formed segment table for
lengths `l0 :: tail` (count field, length fields, `pad` filler) consumes
exactly the table and yields the consecutive layout. -/
theorem table_decode (l0 : Nat) (tail : List Nat) (pad body : List Byte)
    (h511 : tail.length + 1 ≤ 511)
    (hl : ∀ x ∈ l0 :: tail, x < 2 ^ 32)
    (hpad : pad.length = if (tail.length + 1) % 2 = 0 then 4 else 0) :
    try_read_segment_table
      (u32Bytes tail.length ++ ((l0 :: tail).map u32Bytes).flatten ++ pad ++ body)
      = .ok body (l0 :: tail).sum (slicesFrom 0 (l0 :: tail)) := by
  have hsplit : u32Bytes tail.length ++ ((l0 :: tail).map u32Bytes).flatten ++ pad ++ body
      = (u32Bytes tail.length ++ u32Bytes l0)
        ++ (((tail.map u32Bytes).flatten ++ pad) ++ body) := by
    simp [List.append_assoc]
  have hlen8 : (u32Bytes tail.length ++ u32Bytes l0).length = 8 := by
    simp [u32Bytes_length]
  rw [hsplit]
  have h8 : 8 ≤ ((u32Bytes tail.length ++ u32Bytes l0)
      ++ (((tail.map u32Bytes).flatten ++ pad) ++ body)).length := by
    rw [List.length_append, hlen8]; omega
  rw [try_read_segment_table_of_long _ h8]
  have htake : ((u32Bytes tail.length ++ u32Bytes l0)
      ++ (((tail.map u32Bytes).flatten ++ pad) ++ body)).take 8
      = u32Bytes tail.length ++ u32Bytes l0 := List.take_left' hlen8
  have hdrop : ((u32Bytes tail.length ++ u32Bytes l0)
      ++ (((tail.map u32Bytes).flatten ++ pad) ++ body)).drop 8
      = ((tail.map u32Bytes).flatten ++ pad) ++ body := List.drop_left' hlen8
  have hraw : readU32LE (u32Bytes tail.length ++ u32Bytes l0) 0 = tail.length := by
    have := readU32LE_pair_fst tail.length l0 []
    rw [List.append_nil] at this
    rw [this, Nat.mod_eq_of_lt (by omega)]
  have htw : readU32LE (u32Bytes tail.length ++ u32Bytes l0) 4 = l0 := by
    have := readU32LE_pair tail.length l0 []
    rw [List.append_nil] at this
    rw [this, Nat.mod_eq_of_lt (hl l0 (by simp))]
  have hsc : (readU32LE (u32Bytes tail.length ++ u32Bytes l0) 0 + 1) % 2 ^ 32
      = tail.length + 1 := by
    rw [hraw, Nat.mod_eq_of_lt (by omega)]
  simp only [htake, hdrop, hsc, htw]
  rw [if_neg (by omega), if_neg (by omega)]
  by_cases ht : tail = []
  · subst ht
    rw [if_neg (by norm_num)]
    have hpad0 : pad = [] := List.eq_nil_of_length_eq_zero (by simpa using hpad)
    simp [hpad0, slicesFrom]
  · have h2 : 1 < tail.length + 1 := by
      cases tail with
      | nil => exact absurd rfl ht
      | cons a b => simp
    rw [if_pos h2]
    have hp4 : (tail.length + 1) % 2 = 0 → pad.length = 4 := fun hh => by
      rw [hpad, if_pos hh]
    have hp0 : (tail.length + 1) % 2 ≠ 0 → pad.length = 0 := fun hh => by
      rw [hpad, if_neg hh]
    have hbl : (if tail.length + 1 = 2 then 8 else 4 * andNot1 (tail.length + 1))
        = ((tail.map u32Bytes).flatten ++ pad).length := by
      rw [List.length_append, u32chunks_length]
      by_cases hn2 : tail.length + 1 = 2
      · rw [if_pos hn2]
        have h4 := hp4 (by omega)
        omega
      · rw [if_neg hn2]
        unfold andNot1
        by_cases hpar : (tail.length + 1) % 2 = 0
        · have := hp4 hpar; omega
        · have := hp0 hpar; omega
    rw [hbl]
    have hre : readExact ((((tail.map u32Bytes).flatten ++ pad)) ++ body)
        (((tail.map u32Bytes).flatten ++ pad)).length
        = some (body, (tail.map u32Bytes).flatten ++ pad) := by
      rw [readExact, if_pos (by simp), List.drop_left, List.take_left]
    rw [hre]
    have hn1 : tail.length + 1 - 1 = tail.length := by omega
    rw [hn1]
    simp only []
    rw [parsedLens tail pad (fun x hx => hl x (by simp [hx]))]
    simp [slicesFrom]

/-! ## The body writer -/

theorem writeSegsFrom_eq : ∀ (segs : List (List Word)) (stream : List Byte),
    writeSegsFrom stream segs = stream ++ (segs.map wordsToBytes).flatten := by
  intro segs
  induction segs with
  | nil => intro stream; simp [writeSegsFrom]
  | cons s t ih => intro stream; simp [writeSegsFrom, ih]

theorem write_segment_table_snd (stream : List Byte) (c : OutputSegmentsContainer) :
    (write_segment_table stream c).2 = c := rfl

theorem write_message_eq (msg : Builder) :
    write_message [] msg
      = ((write_segment_table [] ⟨msg⟩).1
          ++ (msg.segments.map wordsToBytes).flatten, msg) := by
  simp [write_message, write_segments, write_segments_loop, writeSegsFrom_eq,
    OutputSegmentsContainer.get, write_segment_table_snd]

theorem flatten_wordsToBytes (segs : List (List Word)) :
    (segs.map wordsToBytes).flatten = wordsToBytes segs.flatten := by
  induction segs with
  | nil => rfl
  | cons s t ih =>
    simp only [List.map_cons, List.flatten_cons, ih, wordsToBytes,
      List.map_append, List.flatten_append]

theorem body_length (segs : List (List Word)) :
    ((segs.map wordsToBytes).flatten).length = 8 * (segs.map List.length).sum := by
  rw [flatten_wordsToBytes, wordsToBytes_length, List.length_flatten]


/-! ## Prefix sums of segment lengths -/

theorem sum_take_le (l : List Nat) (n : Nat) : (l.take n).sum ≤ l.sum := by
  conv_rhs => rw [← List.take_append_drop n l]
  rw [List.sum_append]
  omega

theorem sum_take_succ (l : List Nat) (i : Nat) (h : i < l.length) :
    (l.take (i + 1)).sum = (l.take i).sum + l.getD i 0 := by
  rw [List.take_succ, List.sum_append, List.getD_eq_getElem l 0 h]
  simp [List.getElem?_eq_getElem h]

theorem flatten_drop_sum_take : ∀ (i : Nat) (segs : List (List Word)),
    segs.flatten.drop (((segs.map List.length).take i).sum) = (segs.drop i).flatten := by
  intro i
  induction i with
  | zero => intro segs; simp
  | succ k ih =>
    intro segs
    cases segs with
    | nil => simp
    | cons s t =>
      simp only [List.map_cons, List.take_succ_cons, List.sum_cons,
        List.flatten_cons, List.drop_succ_cons]
      rw [List.drop_append, ih t]

/-- Looking up segment `i` of a store built from the consecutive layout of
`segs` over the concatenated buffer recovers `segs[i]` exactly. -/
theorem get_segment_decoded (segs : List (List Word)) (i : Nat) (hi : i < segs.length) :
    get_segment ⟨slicesFrom 0 (segs.map List.length), segs.flatten⟩ i
      = .found (segs.getD i []) := by
  have hlenm : (segs.map List.length).length = segs.length := List.length_map segs List.length
  have hlen : (slicesFrom 0 (segs.map List.length)).length = segs.length := by
    rw [slicesFrom_length, hlenm]
  have hgd := slicesFrom_getD (segs.map List.length) 0 i (by omega)
  have hle : ((segs.map List.length).take i).sum ≤ ((segs.map List.length).take (i + 1)).sum := by
    rw [sum_take_succ _ i (by omega)]
    omega
  have hub : ((segs.map List.length).take (i + 1)).sum ≤ segs.flatten.length := by
    rw [List.length_flatten]
    exact sum_take_le _ _
  have hgdl : (segs.map List.length).getD i 0 = (segs.getD i []).length := by
    rw [List.getD_eq_getElem _ 0 (by omega), List.getD_eq_getElem _ [] hi,
      List.getElem_map]
  have hval : (segs.flatten.drop (((segs.map List.length).take i).sum)).take
      (((segs.map List.length).take (i + 1)).sum - ((segs.map List.length).take i).sum)
      = segs.getD i [] := by
    rw [flatten_drop_sum_take i segs, sum_take_succ _ i (by omega), hgdl]
    rw [List.drop_eq_getElem_cons hi, List.flatten_cons,
      List.getD_eq_getElem _ [] hi]
    simp [List.take_left]
  simp only [get_segment]
  rw [if_pos (show i < (slicesFrom 0 (segs.map List.length)).length by omega)]
  simp only [hgd, Nat.zero_add]
  rw [sliceRange, if_pos ⟨hle, hub⟩, hval]

/-! ## Round trip -/

theorem read_message_write_message (msg : Builder)
    (h1 : 1 ≤ msg.segments.length) (h511 : msg.segments.length ≤ 511)
    (hw : ∀ s ∈ msg.segments, ∀ w ∈ s, w < 2 ^ 64)
    (hl : ∀ s ∈ msg.segments, s.length < 2 ^ 32) :
    read_message (write_message [] msg).1
      = .ok [] ⟨slicesFrom 0 (msg.segments.map List.length), msg.segments.flatten⟩ := by
  obtain ⟨s0, rest, hsegs⟩ : ∃ s0 rest, msg.segments = s0 :: rest := by
    cases hs : msg.segments with
    | nil => rw [hs] at h1; simp at h1
    | cons a b => exact ⟨a, b, rfl⟩
  have hbody : ((msg.segments.map wordsToBytes).flatten).length
      = 8 * (msg.segments.map List.length).sum := body_length msg.segments
  have hchunks : (msg.segments.map fun s => u32Bytes s.length).flatten
      = ((msg.segments.map List.length).map u32Bytes).flatten := by
    rw [List.map_map]
    rfl
  have hcount : msg.segments.length - 1 = (rest.map List.length).length := by
    rw [hsegs]
    simp
  have htab : try_read_segment_table (write_message [] msg).1
      = .ok ((msg.segments.map wordsToBytes).flatten)
          ((msg.segments.map List.length).sum)
          (slicesFrom 0 (msg.segments.map List.length)) := by
    rw [write_message_eq, write_segment_table_eq msg, hchunks, hcount]
    have hmap : msg.segments.map List.length = s0.length :: rest.map List.length := by
      rw [hsegs]; rfl
    rw [hmap]
    apply table_decode s0.length (rest.map List.length)
    · have : (rest.map List.length).length + 1 = msg.segments.length := by
        rw [hsegs]; simp
      omega
    · intro x hx
      rw [← hmap] at hx
      obtain ⟨sseg, hs1, hs2⟩ := List.mem_map.mp hx
      rw [← hs2]
      exact hl sseg hs1
    · rw [List.length_replicate]
      have : (rest.map List.length).length + 1 = msg.segments.length := by
        rw [hsegs]; simp
      rw [this]
  have hwords : bytesToWords ((msg.segments.map wordsToBytes).flatten)
      = msg.segments.flatten := by
    rw [flatten_wordsToBytes]
    apply bytesToWords_wordsToBytes
    intro w hw2
    obtain ⟨sseg, hs1, hs2⟩ := List.mem_flatten.mp hw2
    exact hw sseg hs1 w hs2
  have hre : read_segments ((msg.segments.map wordsToBytes).flatten)
      ((msg.segments.map List.length).sum)
      (slicesFrom 0 (msg.segments.map List.length))
      = .ok ([], ⟨slicesFrom 0 (msg.segments.map List.length), msg.segments.flatten⟩) := by
    rw [read_segments, readExact, if_pos (by rw [hbody]),
      show 8 * (msg.segments.map List.length).sum
        = ((msg.segments.map wordsToBytes).flatten).length from hbody.symm,
      List.drop_length, List.take_length]
    simp only [hwords]
  simp only [read_message, try_read_message, htab, hre]


theorem offsetsOf_cons (p : Nat × Nat) (L : List (Nat × Nat)) :
    offsetsOf (p :: L) = p.1 :: p.2 :: offsetsOf L := by
  simp [offsetsOf]

/-! ## Claim theorems -/

/-- C2 (code bug): on a header whose count field decodes to 512, and on one
whose count field decodes (with wraparound) to 0, `try_read_segment_table`
reaches the `unimplemented!()` branches — a panic — instead of returning
the framing-error result its own `TODO error` comments call for. -/
theorem claim2_bad_count_panics :
    try_read_segment_table [255, 1, 0, 0, 0, 0, 0, 0] = .panicked ∧
    try_read_segment_table [255, 255, 255, 255, 0, 0, 0, 0] = .panicked := by
  exact ⟨rfl, rfl⟩

/-- C3: a stream yielding zero bytes on the first header read gives
"no message" from `try_read_message` and an explicit `premature EOF` error
from `read_message`; a stream yielding 1–7 bytes and then ending gives an
error from both entry points. -/
theorem claim3_eof_vs_short (s : List Byte) (h1 : 1 ≤ s.length) (h7 : s.length ≤ 7) :
    try_read_message [] = .eof [] ∧
    read_message [] = .err (.ioErr .other "premature EOF") ∧
    try_read_message s = .err (.ioErr .other "premature EOF") ∧
    read_message s = .err (.ioErr .other "premature EOF") := by
  have htab : try_read_segment_table s = .err (.ioErr .other "premature EOF") := by
    rw [try_read_segment_table_of_short s (by omega), if_neg (by omega)]
  refine ⟨rfl, rfl, ?_, ?_⟩
  · simp only [try_read_message, htab]
  · simp only [read_message, try_read_message, htab]

theorem claim3_witness :
    try_read_message [] = .eof [] ∧
    read_message [] = .err (.ioErr .other "premature EOF") ∧
    try_read_message [0] = .err (.ioErr .other "premature EOF") ∧
    read_message [0] = .err (.ioErr .other "premature EOF") :=
  claim3_eof_vs_short [0] (by decide) (by decide)

/-- C5 (counterexample): on the spec's scenario-B byte sequence the decoder
consumes only 16 header bytes — the last four zero bytes of the claimed
"24-byte header" are left in the stream (they would be body bytes), and the
16 header bytes alone already decode to the complete layout, so the claimed
trailing padding is neither present in the header nor ignored by the
decoder. -/
theorem claim5_counterexample :
    try_read_segment_table
        [2, 0, 0, 0, 1, 0, 0, 0, 0, 0, 0, 0, 3, 0, 0, 0, 0, 0, 0, 0]
      = .ok [0, 0, 0, 0] 4 [(0, 1), (1, 1), (1, 4)] ∧
    try_read_segment_table [2, 0, 0, 0, 1, 0, 0, 0, 0, 0, 0, 0, 3, 0, 0, 0]
      = .ok [] 4 [(0, 1), (1, 1), (1, 4)] := by
  exact ⟨rfl, rfl⟩

/-- C5 (amended): decoding a stream whose header is the 16 bytes
`02 00 00 00 / 01 00 00 00 / 00 00 00 00 / 03 00 00 00` (three segments of
word lengths 1, 0, 3: with an odd segment count the two length fields
exactly fill the second header word, so no padding bytes are present)
yields the layout `[(0,1),(1,1),(1,4)]` with total word count 4, and any
following bytes are left in the stream for the body. -/
theorem claim5_amended :
    try_read_segment_table
        ([2, 0, 0, 0, 1, 0, 0, 0, 0, 0, 0, 0, 3, 0, 0, 0] ++ List.replicate 32 7)
      = .ok (List.replicate 32 7) 4 [(0, 1), (1, 1), (1, 4)] := by
  rfl

/-- C7: every layout the decoder returns satisfies the layout invariant:
offsets non-decreasing, first start 0, each end equal to the next start,
last end equal to the total word count. -/
theorem claim7_layout_invariant (stream rest : List Byte) (t : Nat)
    (slices : List (Nat × Nat))
    (h : try_read_segment_table stream = .ok rest t slices) :
    layoutOk slices t := by
  obtain ⟨ls, hsl, hts⟩ := table_ok_shape h
  refine ⟨?_, ?_, ?_, ?_⟩
  · rw [hsl]; rfl
  · rw [hsl]
    exact slicesFrom_chain_link ls _ (0, readU32LE (stream.take 8) 4) rfl
  · rw [hsl, hts]
    exact slicesFrom_getLast ls _ (0, readU32LE (stream.take 8) 4) rfl
  · rw [hsl, offsetsOf_cons]
    exact List.Chain'.cons (Nat.zero_le _)
      (slicesFrom_offsets_chain ls _ _ le_rfl)

theorem claim7_witness : layoutOk [(0, 2)] 2 :=
  claim7_layout_invariant [0, 0, 0, 0, 2, 0, 0, 0] [] 2 [(0, 2)] rfl

/-- C8: the write pipeline never changes the builder's segments and hands
the very same builder back to the caller when the write completes. -/
theorem claim8_write_returns_builder (stream : List Byte) (msg : Builder) :
    (write_message stream msg).2 = msg ∧
    (write_message stream msg).2.segments = msg.segments ∧
    (write_segments_loop stream (OutputSegmentsContainer.mk msg) 0).2.message = msg ∧
    (write_segment_table stream (OutputSegmentsContainer.mk msg)).2.message = msg := by
  exact ⟨rfl, rfl, rfl, rfl⟩

/-- C10: `read_message` reports a cleanly closed stream (zero bytes at the
first header read) with exactly the same error value — an I/O error of kind
`Other` with message `premature EOF` — as a mid-header short read, so its
caller cannot tell the two apart from the returned error. -/
theorem claim10_indistinguishable (s : List Byte) (h1 : 1 ≤ s.length)
    (h7 : s.length ≤ 7) :
    read_message [] = .err (.ioErr .other "premature EOF") ∧
    read_message s = .err (.ioErr .other "premature EOF") := by
  have htab : try_read_segment_table s = .err (.ioErr .other "premature EOF") := by
    rw [try_read_segment_table_of_short s (by omega), if_neg (by omega)]
  exact ⟨rfl, by simp only [read_message, try_read_message, htab]⟩

theorem claim10_witness :
    read_message [] = .err (.ioErr .other "premature EOF") ∧
    read_message [5] = .err (.ioErr .other "premature EOF") :=
  claim10_indistinguishable [5] (by decide) (by decide)


/-- C1: writing a message with 1–511 segments and then reading the produced
byte sequence back reproduces the segment count, the per-segment word
lengths, and byte-identical segment contents (each word stands for its 8
bytes, so equal word lists are byte-identical segments). -/
theorem claim1_round_trip (msg : Builder) (i : Nat)
    (h1 : 1 ≤ msg.segments.length) (h511 : msg.segments.length ≤ 511)
    (hw : ∀ s ∈ msg.segments, ∀ w ∈ s, w < 2 ^ 64)
    (hl : ∀ s ∈ msg.segments, s.length < 2 ^ 32)
    (hi : i < msg.segments.length) :
    ∃ store : OwnedSegments,
      read_message (write_message [] msg).1 = .ok [] store ∧
      store.segment_slices.length = msg.segments.length ∧
      get_segment store i = .found (msg.segments.getD i []) := by
  refine ⟨⟨slicesFrom 0 (msg.segments.map List.length), msg.segments.flatten⟩,
    read_message_write_message msg h1 h511 hw hl, ?_, ?_⟩
  · show (slicesFrom 0 (msg.segments.map List.length)).length = msg.segments.length
    rw [slicesFrom_length, List.length_map]
  · exact get_segment_decoded msg.segments i hi

theorem claim1_witness :
    ∃ store : OwnedSegments,
      read_message (write_message [] ⟨[[1, 2], [3]]⟩).1 = .ok [] store ∧
      store.segment_slices.length = (Builder.mk [[1, 2], [3]]).segments.length ∧
      get_segment store 0 = .found ((Builder.mk [[1, 2], [3]]).segments.getD 0 []) :=
  claim1_round_trip ⟨[[1, 2], [3]]⟩ 0 (by decide) (by decide) (by decide)
    (by decide) (by decide)

/-- C6: the decoder derives the segment count from bytes 0–3 of the header
word as the little-endian u32 plus 1 with wraparound mod `2^32` (all-ones
wraps to count 0, which panics in the count check), and bytes 4–7, read as
a little-endian u32, become the word length of segment 0 in every layout it
returns. -/
theorem claim6_header_word (hdr rest : List Byte) (hlen : hdr.length = 8) :
    (readU32LE hdr 0 = 2 ^ 32 - 1 → (readU32LE hdr 0 + 1) % 2 ^ 32 = 0) ∧
    ((readU32LE hdr 0 + 1) % 2 ^ 32 = 0 ∨ 512 ≤ (readU32LE hdr 0 + 1) % 2 ^ 32 →
      try_read_segment_table (hdr ++ rest) = .panicked) ∧
    ((readU32LE hdr 0 + 1) % 2 ^ 32 = 1 →
      try_read_segment_table (hdr ++ rest)
        = .ok rest (readU32LE hdr 4) [(0, readU32LE hdr 4)]) ∧
    (∀ (rest2 : List Byte) (t : Nat) (slices : List (Nat × Nat)),
      try_read_segment_table (hdr ++ rest) = .ok rest2 t slices →
      slices.head? = some (0, readU32LE hdr 4)) := by
  have h8 : 8 ≤ (hdr ++ rest).length := by simp [hlen]
  have htake : (hdr ++ rest).take 8 = hdr := List.take_left' hlen
  have hdrop : (hdr ++ rest).drop 8 = rest := List.drop_left' hlen
  refine ⟨?_, ?_, ?_, ?_⟩
  · intro h
    rw [h]
    norm_num
  · intro h
    rw [try_read_segment_table_of_long _ h8]
    simp only [htake]
    rcases h with h | h
    · rw [if_neg (by omega), if_pos h]
    · rw [if_pos h]
  · intro h
    rw [try_read_segment_table_of_long _ h8]
    simp only [htake, hdrop, h]
    norm_num
  · intro rest2 t slices hok
    obtain ⟨ls, hsl, -⟩ := table_ok_shape hok
    rw [hsl, htake]
    rfl

theorem claim6_witness :
    (readU32LE [255, 255, 255, 255, 9, 0, 0, 0] 0 = 2 ^ 32 - 1 →
      (readU32LE [255, 255, 255, 255, 9, 0, 0, 0] 0 + 1) % 2 ^ 32 = 0) ∧
    ((readU32LE [255, 255, 255, 255, 9, 0, 0, 0] 0 + 1) % 2 ^ 32 = 0 ∨
        512 ≤ (readU32LE [255, 255, 255, 255, 9, 0, 0, 0] 0 + 1) % 2 ^ 32 →
      try_read_segment_table ([255, 255, 255, 255, 9, 0, 0, 0] ++ []) = .panicked) ∧
    ((readU32LE [255, 255, 255, 255, 9, 0, 0, 0] 0 + 1) % 2 ^ 32 = 1 →
      try_read_segment_table ([255, 255, 255, 255, 9, 0, 0, 0] ++ [])
        = .ok [] (readU32LE [255, 255, 255, 255, 9, 0, 0, 0] 4)
            [(0, readU32LE [255, 255, 255, 255, 9, 0, 0, 0] 4)]) ∧
    (∀ (rest2 : List Byte) (t : Nat) (slices : List (Nat × Nat)),
      try_read_segment_table ([255, 255, 255, 255, 9, 0, 0, 0] ++ []) = .ok rest2 t slices →
      slices.head? = some (0, readU32LE [255, 255, 255, 255, 9, 0, 0, 0] 4)) :=
  claim6_header_word [255, 255, 255, 255, 9, 0, 0, 0] [] (by decide)


/-- C4: for a builder with `n ≥ 1` segments the encoder emits a header of
exactly `((n + 2) & !1) * 4` bytes holding `n - 1` as a little-endian u32
at offset 0, segment `i`'s word length as a little-endian u32 at offset
`(i + 1) * 4`, and zero in every trailing padding byte. -/
theorem claim4_segment_table_encoder (msg : Builder) (i : Nat)
    (h1 : 1 ≤ msg.segments.length) (hn : msg.segments.length < 2 ^ 32)
    (hl : ∀ s ∈ msg.segments, s.length < 2 ^ 32)
    (hi : i < msg.segments.length) :
    (write_segment_table [] ⟨msg⟩).1.length = andNot1 (msg.segments.length + 2) * 4 ∧
    readU32LE (write_segment_table [] ⟨msg⟩).1 0 = msg.segments.length - 1 ∧
    readU32LE (write_segment_table [] ⟨msg⟩).1 ((i + 1) * 4)
      = (msg.segments.getD i []).length ∧
    (∀ j, 4 * (msg.segments.length + 1) ≤ j →
      j < (write_segment_table [] ⟨msg⟩).1.length →
      (write_segment_table [] ⟨msg⟩).1.getD j 1 = 0) := by
  have heq := write_segment_table_eq msg
  have hchunks : (msg.segments.map fun s => u32Bytes s.length)
      = (msg.segments.map List.length).map u32Bytes := by
    rw [List.map_map]
    rfl
  rw [hchunks] at heq
  have hA : (u32Bytes (msg.segments.length - 1)
      ++ ((msg.segments.map List.length).map u32Bytes).flatten).length
      = 4 * (msg.segments.length + 1) := by
    rw [List.length_append, u32Bytes_length, u32chunks_length, List.length_map]
    ring
  refine ⟨?_, ?_, ?_, ?_⟩
  · rw [heq, List.length_append, hA, List.length_replicate]
    unfold andNot1
    by_cases hpar : msg.segments.length % 2 = 0 <;> simp only [hpar] <;> simp <;> omega
  · rw [heq, List.append_assoc, readU32LE_u32Bytes, Nat.mod_eq_of_lt (by omega)]
  · rw [heq, List.append_assoc]
    have hstep : (i + 1) * 4 = (u32Bytes (msg.segments.length - 1)).length + i * 4 := by
      rw [u32Bytes_length]
      ring
    rw [hstep, readU32LE_shift,
      readU32LE_flatten_u32 (msg.segments.map List.length) i _
        (by rw [List.length_map]; omega)]
    have hgdl : (msg.segments.map List.length).getD i 0
        = (msg.segments.getD i []).length := by
      rw [List.getD_eq_getElem _ 0 (by rw [List.length_map]; omega),
        List.getD_eq_getElem _ [] hi, List.getElem_map]
    rw [hgdl, Nat.mod_eq_of_lt]
    apply hl
    rw [List.getD_eq_getElem _ [] hi]
    exact List.getElem_mem _
  · intro j hj1 hj2
    rw [heq] at hj2
    rw [List.length_append, hA, List.length_replicate] at hj2
    rw [heq, List.getD_append_right _ _ _ _ (by omega)]
    rw [List.getD_eq_getElem?_getD, List.getElem?_replicate,
      if_pos (by rw [hA]; omega)]
    rfl

theorem claim4_witness :
    (write_segment_table [] ⟨⟨[[5], [7, 8]]⟩⟩).1.length = andNot1 (2 + 2) * 4 ∧
    readU32LE (write_segment_table [] ⟨⟨[[5], [7, 8]]⟩⟩).1 0 = 2 - 1 ∧
    readU32LE (write_segment_table [] ⟨⟨[[5], [7, 8]]⟩⟩).1 ((1 + 1) * 4)
      = ((Builder.mk [[5], [7, 8]]).segments.getD 1 []).length ∧
    (∀ j, 4 * (2 + 1) ≤ j →
      j < (write_segment_table [] ⟨⟨[[5], [7, 8]]⟩⟩).1.length →
      (write_segment_table [] ⟨⟨[[5], [7, 8]]⟩⟩).1.getD j 1 = 0) :=
  claim4_segment_table_encoder ⟨[[5], [7, 8]]⟩ 1 (by decide) (by decide)
    (by decide) (by decide)

/-- C9: for a store produced by a successful decode, `get_segment` is total
and never panics: every id below the segment count yields `Some` sub-slice
whose bounds lie inside the owned buffer, and every id at or above the
segment count yields `None`. -/
theorem claim9_get_segment_total (stream rest : List Byte) (store : OwnedSegments)
    (id : Nat) (h : try_read_message stream = .ok rest store) :
    get_segment store id ≠ .panicked ∧
    (id < store.segment_slices.length →
      (store.segment_slices.getD id (0, 0)).1 ≤ (store.segment_slices.getD id (0, 0)).2 ∧
      (store.segment_slices.getD id (0, 0)).2 ≤ store.owned_space.length ∧
      get_segment store id
        = .found ((store.owned_space.drop (store.segment_slices.getD id (0, 0)).1).take
            ((store.segment_slices.getD id (0, 0)).2 - (store.segment_slices.getD id (0, 0)).1))) ∧
    (store.segment_slices.length ≤ id → get_segment store id = .notFound) := by
  cases hT : try_read_segment_table stream with
  | panicked => simp only [try_read_message, hT] at h; exact absurd h (by simp)
  | err e => simp only [try_read_message, hT] at h; exact absurd h (by simp)
  | eof s1 => simp only [try_read_message, hT] at h; exact absurd h (by simp)
  | ok s1 t slices =>
    simp only [try_read_message, hT] at h
    rcases hE : readExact s1 (8 * t) with _ | ⟨s2, bytes⟩
    · simp only [read_segments, hE] at h
      exact absurd h (by simp)
    · simp only [read_segments, hE] at h
      simp only [ReadResult.ok.injEq] at h
      obtain ⟨-, hstore⟩ := h
      subst hstore
      have hblen : bytes.length = 8 * t := by
        rw [readExact] at hE
        by_cases hle : 8 * t ≤ s1.length
        · rw [if_pos hle] at hE
          simp only [Option.some.injEq, Prod.mk.injEq] at hE
          rw [← hE.2, List.length_take]
          omega
        · rw [if_neg hle] at hE
          cases hE
      have hw : (bytesToWords bytes).length = t := bytesToWords_length_mul8 t bytes hblen
      obtain ⟨ls, hsl, hts⟩ := table_ok_shape hT
      have hbounds : ∀ p ∈ slices, p.1 ≤ p.2 ∧ p.2 ≤ t := by
        intro p hp
        rw [hsl] at hp
        rcases List.mem_cons.mp hp with hp0 | hpm
        · subst hp0
          refine ⟨Nat.zero_le _, ?_⟩
          rw [hts]
          exact Nat.le_add_right _ _
        · have hb := slicesFrom_mem_bounds ls _ p hpm
          omega
      have hkey : ∀ _ : id < slices.length,
          (slices.getD id (0, 0)).1 ≤ (slices.getD id (0, 0)).2 ∧
          (slices.getD id (0, 0)).2 ≤ (bytesToWords bytes).length ∧
          get_segment ⟨slices, bytesToWords bytes⟩ id
            = .found (((bytesToWords bytes).drop (slices.getD id (0, 0)).1).take
                ((slices.getD id (0, 0)).2 - (slices.getD id (0, 0)).1)) := by
        intro hid
        have hmem : slices.getD id (0, 0) ∈ slices := by
          rw [List.getD_eq_getElem _ _ hid]
          exact List.getElem_mem _
        have hb := hbounds _ hmem
        refine ⟨hb.1, by omega, ?_⟩
        simp only [get_segment]
        rw [if_pos hid]
        rw [sliceRange, if_pos ⟨hb.1, by omega⟩]
      refine ⟨?_, fun hid => hkey hid, fun hge => ?_⟩
      · by_cases hid : id < slices.length
        · rw [(hkey hid).2.2]
          simp
        · simp only [get_segment]
          rw [if_neg hid]
          simp
      · have hge2 : slices.length ≤ id := hge
        simp only [get_segment]
        rw [if_neg (by omega)]

theorem claim9_witness :
    get_segment ⟨[(0, 1)], [1]⟩ 0 ≠ .panicked ∧
    (0 < 1 →
      0 ≤ 1 ∧ 1 ≤ 1 ∧
      get_segment ⟨[(0, 1)], [1]⟩ 0 = .found [1]) ∧
    (1 ≤ 0 → get_segment ⟨[(0, 1)], [1]⟩ 0 = .notFound) :=
  claim9_get_segment_total [0, 0, 0, 0, 1, 0, 0, 0, 1, 0, 0, 0, 0, 0, 0, 0] []
    ⟨[(0, 1)], [1]⟩ 0 rfl

end CapnpGj
